import Mathlib

/-!
Shallow embedding of the Fornjot B-rep kernel sources, with proofs of the
specification's claims about them.  `f64` arithmetic is modelled as exact
arithmetic: rationals (`ℚ`) where the code only adds, multiplies, compares
and divides, and reals (`ℝ`) where it also takes square roots
(`normalize`, point-to-plane distances).  Definitions follow the source
files; the few collaborator functions whose sources are not part of the
repository snapshot are modelled from the spec and say so in their doc
comments.
-/

namespace Fornjot

/-- A 3-dimensional point (or vector) with exact coordinates
(`fj_math::Point<3>` / `Vector<3>`; `f64` modelled as `ℚ`). -/
structure Pt3 where
  x : ℚ
  y : ℚ
  z : ℚ
deriving DecidableEq, Repr

/-- A 2-dimensional point (or vector) with exact coordinates. -/
structure Pt2 where
  x : ℚ
  y : ℚ
deriving DecidableEq, Repr

/-! ## `MeshMaker` (src/src/mesh.rs) -/

/-- `MeshMaker<V>` (src/src/mesh.rs): deduplicated vertex list plus the
emitted index list. -/
structure MeshMaker (V : Type) where
  vertices : List V
  indices : List Nat
deriving DecidableEq, Repr

/-- `MeshMaker::new`. -/
def MeshMaker.new (V : Type) : MeshMaker V := ⟨[], []⟩

/-- `MeshMaker::push` (src/src/mesh.rs lines 20-29): look for the vertex by
linear scan (`position`); emit the found index, or append the vertex and emit
the previous length. -/
def MeshMaker.push {V : Type} [DecidableEq V] (m : MeshMaker V) (vertex : V) :
    MeshMaker V :=
  match m.vertices.findIdx? (· == vertex) with
  | some pos => { m with indices := m.indices ++ [pos] }
  | none =>
      { vertices := m.vertices ++ [vertex],
        indices := m.indices ++ [m.vertices.length] }

/-- Push a whole sequence of vertices, in order. -/
def MeshMaker.pushAll {V : Type} [DecidableEq V] (m : MeshMaker V)
    (vs : List V) : MeshMaker V :=
  vs.foldl MeshMaker.push m

/-! ## `Mesh` (src/fj-interop/src/mesh.rs) -/

/-- RGBA color (`[u8; 4]`). -/
abbrev Color := Nat × Nat × Nat × Nat

/-- The triangle record a mesh stores (`fj_interop::mesh::Triangle`): an
`fj_math::Triangle<3>` (its three points) plus a color. -/
structure MTriangle where
  inner : Pt3 × Pt3 × Pt3
  color : Color
deriving DecidableEq, Repr

/-- Lookup in the association list that models the `HashMap` field
`indices_by_vertex`. -/
def assocIndex {V : Type} [DecidableEq V] (map : List (V × Nat)) (vertex : V) :
    Option Nat :=
  (map.find? fun entry => entry.1 == vertex).map (·.2)

/-- `Mesh<V>` (src/fj-interop/src/mesh.rs): vertices, emitted indices, the
vertex-to-index map (`HashMap` modelled as an association list) and the
triangle list. -/
structure Mesh (V : Type) where
  vertices : List V
  indices : List Nat
  indicesByVertex : List (V × Nat)
  triangles : List MTriangle
deriving DecidableEq, Repr

/-- `Mesh::new` / `Default`. -/
def Mesh.new (V : Type) : Mesh V := ⟨[], [], [], []⟩

/-- `Mesh::push_vertex` (src/fj-interop/src/mesh.rs lines 26-35): the
`entry(vertex).or_insert_with(...)` either finds the stored index or inserts
the next index (the current vertex count) and appends the vertex; the
resulting index is always emitted. -/
def Mesh.pushVertex {V : Type} [DecidableEq V] (m : Mesh V) (vertex : V) :
    Mesh V :=
  match assocIndex m.indicesByVertex vertex with
  | some index => { m with indices := m.indices ++ [index] }
  | none =>
      let index := m.vertices.length
      { m with
        vertices := m.vertices ++ [vertex],
        indicesByVertex := m.indicesByVertex ++ [(vertex, index)],
        indices := m.indices ++ [index] }

/-- Push a whole sequence of vertices, in order. -/
def Mesh.pushVertexAll {V : Type} [DecidableEq V] (m : Mesh V) (vs : List V) :
    Mesh V :=
  vs.foldl Mesh.pushVertex m

/-- Lexicographic key of a 3-d point, for the canonical-form comparison. -/
def Pt3.lexKey (p : Pt3) : ℚ ×ₗ ℚ ×ₗ ℚ := toLex (p.x, toLex (p.y, p.z))

/-- The order on points the canonical form sorts by. -/
def ptLe (p q : Pt3) : Prop := p.lexKey ≤ q.lexKey

instance : DecidableRel ptLe :=
  fun p q => inferInstanceAs (Decidable (p.lexKey ≤ q.lexKey))

instance : IsTotal Pt3 ptLe := ⟨fun p q => le_total p.lexKey q.lexKey⟩

instance : IsTrans Pt3 ptLe := ⟨fun _ _ _ h h' => le_trans h h'⟩

theorem pt3LexKey_inj {p q : Pt3} (h : p.lexKey = q.lexKey) : p = q := by
  cases p; cases q
  simpa [Pt3.lexKey, Prod.ext_iff] using h

instance : IsAntisymm Pt3 ptLe :=
  ⟨fun _ _ h h' => pt3LexKey_inj (le_antisymm h h')⟩

/-- Modelled from the spec: `fj_math::Triangle::normalize` (crate `fj-math`,
not among the repository's source files).  The spec requires "geometrically
identical triangles (same point set under any rotation/reflection of vertex
order) be recognized as duplicates by a canonical-form comparison"; the
canonical form is modelled as the three points sorted lexicographically. -/
def triangleCanonical (t : Pt3 × Pt3 × Pt3) : List Pt3 :=
  List.insertionSort ptLe [t.1, t.2.1, t.2.2]

/-- `Mesh::contains_triangle` (src/fj-interop/src/mesh.rs lines 41-54):
true when some stored triangle has the same canonical form. -/
def Mesh.containsTriangle {V : Type} (m : Mesh V) (t : Pt3 × Pt3 × Pt3) :
    Bool :=
  m.triangles.any fun mt => decide (triangleCanonical t = triangleCanonical mt.inner)

/-- `Mesh::push_triangle` (src/fj-interop/src/mesh.rs lines 74-87): push the
three points as vertices, then record the triangle. -/
def Mesh.pushTriangle (m : Mesh Pt3) (t : Pt3 × Pt3 × Pt3) (color : Color) :
    Mesh Pt3 :=
  let m := (m.pushVertex t.1 |>.pushVertex t.2.1 |>.pushVertex t.2.2)
  { m with triangles := m.triangles ++ [⟨t, color⟩] }

/-! ## `ShellBuilder::tetrahedron` (src/crates/fj-kernel/src/builder/shell.rs) -/

/-- A triangular face: its three corner points and the handles (identities)
of its three boundary edges, in the order first-to-second, second-to-third,
third-to-first corner. -/
structure FaceT where
  points : Pt3 × Pt3 × Pt3
  edges : Nat × Nat × Nat
deriving DecidableEq, Repr

/-- Modelled from the spec: `Face::triangle` (`operations::BuildFace`, not
among the repository's source files, called by `ShellBuilder::tetrahedron`).
It builds one triangular face from three points; for each of the three
boundary sides a caller may pass an existing edge handle, which is then
reused, or `none`, in which case a fresh edge is constructed (a fresh handle
taken from the `next` counter of the object service).  It returns the face,
its three edge handles, and the advanced counter. -/
def faceTriangle (points : Pt3 × Pt3 × Pt3)
    (edges : Option Nat × Option Nat × Option Nat) (next : Nat) :
    (FaceT × (Nat × Nat × Nat)) × Nat :=
  let (e₁, n₁) := match edges.1 with
    | some e => (e, next)
    | none => (next, next + 1)
  let (e₂, n₂) := match edges.2.1 with
    | some e => (e, n₁)
    | none => (n₁, n₁ + 1)
  let (e₃, n₃) := match edges.2.2 with
    | some e => (e, n₂)
    | none => (n₂, n₂ + 1)
  ((⟨points, (e₁, e₂, e₃)⟩, (e₁, e₂, e₃)), n₃)

/-- `ShellBuilder::tetrahedron` (src/crates/fj-kernel/src/builder/shell.rs
lines 14-30): four triangular faces; the base face constructs the edges
`ab`, `bc`, `ca`, and every later face passes the already-built handles of
the edges it shares with earlier faces. -/
def tetrahedron (points : Pt3 × Pt3 × Pt3 × Pt3) : List FaceT :=
  let (a, b, c, d) := points
  let ((base, (ab, bc, ca)), n₁) := faceTriangle (a, b, c) (none, none, none) 0
  let ((sideA, (_, bd, da)), n₂) := faceTriangle (a, b, d) (some ab, none, none) n₁
  let ((sideB, (_, _, dc)), n₃) := faceTriangle (c, a, d) (some ca, some da, none) n₂
  let ((sideC, _), _) := faceTriangle (b, c, d) (some bc, some dc, some bd) n₃
  [base, sideA, sideB, sideC]

/-- The three edge handles of a face, as a list. -/
def FaceT.edgeList (f : FaceT) : List Nat :=
  [f.edges.1, f.edges.2.1, f.edges.2.2]

/-- All edge handles of a shell, face by face (with repetition). -/
def shellEdgeIds (shell : List FaceT) : List Nat :=
  (shell.map FaceT.edgeList).flatten

/-! ## Curve approximation with cache
(src/crates/fj-kernel/src/algorithms/approx/curve.rs) -/

/-- The geometric carrier of a global curve (`GlobalPath`: the two supported
variants per spec §3, a line and a circle). -/
inductive GlobalPath
  | line (origin direction : Pt3)
  | circle (center : Pt3) (radius : ℚ)
deriving DecidableEq, Repr

/-- `RangeOnPath`: the half-open 1-d parameter range `[start, end)` an
approximation is requested for, both bounds in curve-local coordinates. -/
structure RangeOnPath where
  start : ℚ
  stop : ℚ
deriving DecidableEq, Repr

/-- One approximation point of a global path: its 1-d curve-local coordinate
together with its 3-d global coordinates (`ApproxPoint<1>`). -/
structure ApproxPoint1 where
  localForm : ℚ
  globalForm : Pt3
deriving DecidableEq, Repr

/-- `GlobalPathApprox`: the approximation of a global path. -/
structure GlobalPathApprox where
  points : List ApproxPoint1
deriving DecidableEq, Repr

/-- `GlobalCurve`: the model-space identity of a curve.  The handle identity
the cache is keyed by is modelled as a `Nat` id. -/
structure GlobalCurveM where
  id : Nat
  path : GlobalPath
deriving DecidableEq, Repr

/-- Modelled from the spec: `ApproxCache` (approx/cache.rs, not among the
repository's source files) — "maintains an identity-keyed cache", "keyed by
`GlobalCurve` identity".  Modelled as an association list from global-curve
ids to stored approximations. -/
structure ApproxCache where
  globalCurves : List (Nat × GlobalPathApprox)
deriving DecidableEq, Repr

/-- An empty cache (`ApproxCache::new`). -/
def ApproxCache.new : ApproxCache := ⟨[]⟩

/-- Modelled from the spec: `ApproxCache::global_curve` — the cached
approximation for this global curve, if any. -/
def ApproxCache.globalCurve (cache : ApproxCache) (curve : GlobalCurveM) :
    Option GlobalPathApprox :=
  (cache.globalCurves.find? fun entry => entry.1 == curve.id).map (·.2)

/-- Modelled from the spec: `ApproxCache::insert_global_curve` — record the
approximation under the curve's identity and hand it back. -/
def ApproxCache.insertGlobalCurve (cache : ApproxCache) (curve : GlobalCurveM)
    (approx : GlobalPathApprox) : GlobalPathApprox × ApproxCache :=
  (approx, ⟨(curve.id, approx) :: cache.globalCurves⟩)

/-- The type of the underlying path sampler,
`(curve.path(), range).approx_with_cache(tolerance, cache)`: path, range and
tolerance in, a list of (curve-local, global) point pairs out. -/
abbrev PathSampler := GlobalPath → RangeOnPath → ℚ → List (ℚ × Pt3)

/-- `impl Approx for (&GlobalCurve, RangeOnPath)::approx_with_cache`
(src/crates/fj-kernel/src/algorithms/approx/curve.rs lines 42-65): return the
cached approximation if the cache holds one for this global curve; otherwise
sample the curve's path over the range, wrap the sampled pairs as
`ApproxPoint`s, and insert the result into the cache before returning it.
The underlying path sampling lives in approx/path.rs, which is not among the
repository's source files; it is abstracted as the function argument
`sample`.  The returned `Nat` counts how often `sample` was invoked (the
spec's instrumented counting sampler). -/
def globalCurveApproxWithCache (sample : PathSampler) (curve : GlobalCurveM)
    (range : RangeOnPath) (tolerance : ℚ) (cache : ApproxCache) :
    GlobalPathApprox × ApproxCache × Nat :=
  match cache.globalCurve curve with
  | some approx => (approx, cache, 0)
  | none =>
      let points := (sample curve.path range tolerance).map fun p =>
        ApproxPoint1.mk p.1 p.2
      let (approx, cache') := cache.insertGlobalCurve curve ⟨points⟩
      (approx, cache', 1)

/-! ## Boundary exclusion of path sampling (spec §4.3; the sampler itself,
approx/path.rs, is not among the repository's source files) -/

/-- Modelled from the spec: the interior sample parameters of a circular arc
over the half-open range `[start, stop)` (approx/path.rs, not among the
repository's source files).  Per spec §4.3 the two boundaries are never
produced; the arc is cut into `n + 1` chords through `n` evenly spaced
strictly interior parameters.  The chord count is "chosen from the radius
and tolerance so that the maximum sagitta of each chord is within
tolerance"; that count (an `acos` computation) is abstracted as the
argument `n`. -/
def circleParams (start stop : ℚ) (n : Nat) : List ℚ :=
  (List.range n).map fun (i : Nat) =>
    start + (stop - start) * ((i : ℚ) + 1) / ((n : ℚ) + 1)

/-- Modelled from the spec: the curve-local coordinates of the points the
path sampler produces.  A line needs no interior samples (§4.3: "for a line
this is trivial — any single interior sample or none is sufficient since a
line has zero curvature"); a circle gets the evenly spaced interior
parameters of `circleParams`. -/
def pathApproxParams : GlobalPath → RangeOnPath → Nat → List ℚ
  | .line _ _, _, _ => []
  | .circle _ _, range, n => circleParams range.start range.stop n

/-! ## Edge approximation (src/crates/fj-kernel/src/algorithms/approx/edge.rs) -/

/-- A bounding vertex of an edge as the edge approximation reads it
(`vertex.position()` in 1-d curve coordinates and
`vertex.global().position()` in 3-d global coordinates; the vertex type
itself is not among the repository's source files and is modelled from
spec §3). -/
structure VertexE where
  position : ℚ
  globalPosition : Pt3

/-- `RangeOnCurve`: the boundary of the range handed to the curve sampler
(`[Scalar::ZERO, Scalar::TAU]`), in curve-local coordinates. -/
structure RangeOnCurve where
  boundary : ℝ × ℝ

/-- The curve a kernel edge references, as the edge approximation uses it.
Its two operations live outside the repository's source files and are
abstracted as function fields: `pointFromCurveCoords` is
`curve.kind().point_from_curve_coords` (1-d curve coordinates to 2-d surface
coordinates) and `sample` is the curve's own range-approximation
`curve.approx(tolerance, range)` (the generic sampler of spec §4.3). -/
structure CurveE where
  pointFromCurveCoords : ℚ → Pt2
  sample : ℚ → RangeOnCurve → List (Pt2 × Pt3)

/-- `Edge` as the edge approximation reads it: a curve and the optional pair
of bounding vertices (spec §3: absent when the edge is self-connected). -/
structure EdgeE where
  curve : CurveE
  vertices : Option (VertexE × VertexE)

/-- `impl Approx for Edge::approx`
(src/crates/fj-kernel/src/algorithms/approx/edge.rs lines 7-43): sample the
curve over `[0, TAU]`, then, if the edge has bounding vertices, insert the
exact (curve-coordinate converted, global) data of the *first* bounding
vertex at position 0 of the approximation. -/
noncomputable def EdgeE.approx (edge : EdgeE) (tolerance : ℚ) :
    List (Pt2 × Pt3) :=
  let range : RangeOnCurve := ⟨(0, 2 * Real.pi)⟩
  let points := edge.curve.sample tolerance range
  match edge.vertices with
  | some (v₀, _) =>
      (edge.curve.pointFromCurveCoords v₀.position, v₀.globalPosition) :: points
  | none => points

/-! ## Sweep side walls (src/src/kernel/shapes/sweep.rs,
src/src/kernel/topology/edges.rs) -/

/-- `Curve` of the src/src snapshot (its own source file is not among the
repository's files; variants and fields as constructed by
topology/edges.rs and described by spec §3): `Line { origin, direction }`
and `Circle { center, radius }` with a 2-d radius vector. -/
inductive CurveT
  | line (origin direction : Pt3)
  | circle (center : Pt3) (radius : Pt2)
deriving DecidableEq, Repr

/-- Modelled from the spec: `Vertex<1>` (topology/vertices.rs, not among the
repository's source files).  Spec §3: "a position in some coordinate space
(1-D curve-local ...) plus, where applicable, a back-reference to its
global-space position" — the 1-d position and the canonical 3-d location
`to_canonical` returns. -/
structure Vertex1 where
  position : ℚ
  canonical : Pt3
deriving DecidableEq, Repr

/-- `Edge` (src/src/kernel/topology/edges.rs lines 54-74): a curve, the
optional pair of bounding vertices in curve coordinates (`None` when the
edge is connected to itself, like a full circle), and the direction flag. -/
structure EdgeT where
  curve : CurveT
  vertices : Option (Vertex1 × Vertex1)
  reverse : Bool
deriving DecidableEq, Repr

/-- `Edge::circle` (src/src/kernel/topology/edges.rs lines 125-134): a full
circle around the origin, connected to itself (no bounding vertices). -/
def EdgeT.circle (radius : ℚ) : EdgeT :=
  { curve := .circle ⟨0, 0, 0⟩ ⟨radius, 0⟩, vertices := none, reverse := false }

/-- Translate a point by `length` along the z axis
(`Isometry::translation(0., 0., length)` applied to a point). -/
def Pt3.translateZ (p : Pt3) (length : ℚ) : Pt3 := ⟨p.x, p.y, p.z + length⟩

/-- Component-wise sum (point plus vector). -/
def Pt3.add (p q : Pt3) : Pt3 := ⟨p.x + q.x, p.y + q.y, p.z + q.z⟩

/-- `Curve::transform` specialized to the z translation the sweep applies
(spec §4.1: transforming recomputes origin/center; directions are unchanged
by a translation). -/
def CurveT.translateZ : CurveT → ℚ → CurveT
  | .line origin direction, length => .line (origin.translateZ length) direction
  | .circle center radius, length => .circle (center.translateZ length) radius

/-- `Vertex::transform` specialized to the z translation: the canonical
location moves, the curve-local coordinate is untouched. -/
def Vertex1.translateZ (v : Vertex1) (length : ℚ) : Vertex1 :=
  ⟨v.position, v.canonical.translateZ length⟩

/-- `Edge::transform` (src/src/kernel/topology/edges.rs lines 141-150)
specialized to the z translation: transform the curve and, when present,
both bounding vertices. -/
def EdgeT.translateZ (e : EdgeT) (length : ℚ) : EdgeT :=
  { curve := e.curve.translateZ length,
    vertices := e.vertices.map fun v =>
      (v.1.translateZ length, v.2.translateZ length),
    reverse := e.reverse }

/-- `Edge::sweep_vertex` (src/src/kernel/topology/edges.rs lines 112-122): a
line edge from the vertex's location along `path`, bounded by that vertex
and a newly created vertex at the far end.  The conversion of the bounding
vertices into curve coordinates (`Vertex::to_1d`, vertices.rs, not among the
repository's source files) is modelled as placing them at the line
parameters 0 and 1. -/
def EdgeT.sweepVertex (vertex : Pt3) (path : Pt3) : EdgeT :=
  { curve := .line vertex path,
    vertices := some (⟨0, vertex⟩, ⟨1, vertex.add path⟩),
    reverse := false }

/-- `Cycle` (src/src/kernel/topology/edges.rs lines 49-52). -/
structure CycleT where
  edges : List EdgeT
deriving DecidableEq, Repr

/-- `Edges` (src/src/kernel/topology/edges.rs lines 9-17). -/
structure EdgesT where
  cycles : List CycleT
deriving DecidableEq, Repr

/-- `Edges::single_cycle` (src/src/kernel/topology/edges.rs lines 20-29). -/
def EdgesT.singleCycle (edges : List EdgeT) : EdgesT := ⟨[⟨edges⟩]⟩

/-- The side-wall edge construction for one boundary edge inside
`impl Shape for fj::Sweep::faces` (src/src/kernel/shapes/sweep.rs lines
43-107): translate the edge to the top; an edge bounded by two vertices
gets a single four-edge cycle `[edge, swept a, top edge, swept b]`, a
self-connected edge (no bounding vertices) gets two one-edge cycles, the
original edge and the translated edge. -/
def sweepSideWall (edge : EdgeT) (length : ℚ) : EdgesT :=
  let topEdge := edge.translateZ length
  let path : Pt3 := ⟨0, 0, length⟩
  match edge.vertices with
  | some (a, b) =>
      let ea := EdgeT.sweepVertex a.canonical path
      let eb := EdgeT.sweepVertex b.canonical path
      EdgesT.singleCycle [edge, ea, topEdge, eb]
  | none => ⟨[⟨[edge]⟩, ⟨[topEdge]⟩]⟩

/-! ## Surfaces (src/src/kernel/geometry/surfaces.rs) — real coordinates -/

/-- A 3-dimensional point or vector with real coordinates (`f64` values that
flow through square roots are modelled as `ℝ`). -/
structure R3 where
  x : ℝ
  y : ℝ
  z : ℝ

/-- A 2-dimensional point or vector with real coordinates. -/
structure R2 where
  x : ℝ
  y : ℝ

/-- Component-wise difference. -/
noncomputable def R3.sub (a b : R3) : R3 := ⟨a.x - b.x, a.y - b.y, a.z - b.z⟩

/-- Component-wise sum. -/
noncomputable def R3.add (a b : R3) : R3 := ⟨a.x + b.x, a.y + b.y, a.z + b.z⟩

/-- Scalar multiple. -/
noncomputable def R3.smul (a : R3) (k : ℝ) : R3 := ⟨k * a.x, k * a.y, k * a.z⟩

/-- Dot product. -/
noncomputable def R3.dot (a b : R3) : ℝ := a.x * b.x + a.y * b.y + a.z * b.z

/-- Cross product (`nalgebra`'s `Vector3::cross`). -/
noncomputable def R3.cross (a b : R3) : R3 :=
  ⟨a.y * b.z - a.z * b.y, a.z * b.x - a.x * b.z, a.x * b.y - a.y * b.x⟩

/-- Euclidean norm. -/
noncomputable def R3.norm (a : R3) : ℝ :=
  Real.sqrt (a.x * a.x + a.y * a.y + a.z * a.z)

/-- `nalgebra`'s `normalize`: the vector divided by its norm. -/
noncomputable def R3.normalize (a : R3) : R3 :=
  ⟨a.x / a.norm, a.y / a.norm, a.z / a.norm⟩

/-- `<f64 as approx::AbsDiffEq>::default_epsilon()`, which is
`f64::EPSILON` = 2⁻⁵². -/
noncomputable def defaultEpsilon : ℝ := 1 / 2 ^ 52

/-- `Plane` (src/src/kernel/geometry/surfaces.rs lines 74-100): an origin
and two spanning directions `u`, `v` (not required to be unit or
orthogonal). -/
structure Plane where
  origin : R3
  u : R3
  v : R3

open Classical in
/-- `Plane::point_model_to_surface` (src/src/kernel/geometry/surfaces.rs
lines 116-141): compute the plane's implicit equation from `normal = u × v`,
reject the point (`Err(())`, modelled as `none`) when its distance to the
plane exceeds the fixed epsilon, and otherwise return the scalar projections
of `point - origin` onto the normalized `u` and `v`. -/
noncomputable def Plane.pointModelToSurface (plane : Plane) (point : R3) :
    Option R2 :=
  let normal := plane.u.cross plane.v
  let a := normal.x
  let b := normal.y
  let c := normal.z
  let d := -(a * plane.origin.x + b * plane.origin.y + c * plane.origin.z)
  let distance := |a * point.x + b * point.y + c * point.z + d| /
    Real.sqrt (a * a + b * b + c * c)
  if distance > defaultEpsilon then
    none
  else
    let p := point.sub plane.origin
    let s := p.dot plane.u.normalize
    let t := p.dot plane.v.normalize
    some ⟨s, t⟩

/-- `Plane::vector_surface_to_model` (src/src/kernel/geometry/surfaces.rs
lines 149-151): `vector.x * u + vector.y * v`.  Total: no failure case. -/
noncomputable def Plane.vectorSurfaceToModel (plane : Plane) (vector : R2) : R3 :=
  (plane.u.smul vector.x).add (plane.v.smul vector.y)

/-- `Plane::point_surface_to_model` (src/src/kernel/geometry/surfaces.rs
lines 144-146): `origin + vector_surface_to_model(point.coords)`.  Total:
no failure case. -/
noncomputable def Plane.pointSurfaceToModel (plane : Plane) (point : R2) : R3 :=
  plane.origin.add (plane.vectorSurfaceToModel point)

/-! ## `Triangle` (src/fj/src/geometry/shapes/triangle.rs) — the 2-d case -/

/-- Component-wise difference of 2-d points. -/
noncomputable def R2.sub (a b : R2) : R2 := ⟨a.x - b.x, a.y - b.y⟩

/-- Euclidean norm of a 2-d vector. -/
noncomputable def R2.norm (a : R2) : ℝ := Real.sqrt (a.x * a.x + a.y * a.y)

/-- `nalgebra`'s `normalize` for 2-d vectors. -/
noncomputable def R2.normalize (a : R2) : R2 := ⟨a.x / a.norm, a.y / a.norm⟩

/-- The `Error` enum of triangle construction
(src/fj/src/geometry/shapes/triangle.rs lines 55-59). -/
inductive TriangleError
  | collapsedPoints
  | isALineSegment
deriving DecidableEq, Repr

/-- `Triangle<2>` (src/fj/src/geometry/shapes/triangle.rs): the stored,
canonically rotated point triple.  The stored coordinates are `R32` values
converted from `f64`; the conversion is modelled as the identity. -/
structure Triangle2 where
  points : R2 × R2 × R2

/-- The lexicographic comparison key of a 2-d point: the `Ord` comparison on
the point's coordinate array which `std::cmp::min` and `==` use in
`Triangle::new`. -/
def R2.lexKey (p : R2) : ℝ ×ₗ ℝ := toLex (p.x, p.y)

open Classical in
/-- `std::cmp::min` on points under the coordinate-array comparison: the
second argument when it is strictly smaller, otherwise the first. -/
noncomputable def minPoint (p q : R2) : R2 := if q.lexKey < p.lexKey then q else p

open Classical in
/-- `Triangle::new` (src/fj/src/geometry/shapes/triangle.rs lines 15-47):
reject a pair of equal points (`CollapsedPoints`); reject points whose two
successive difference vectors have equal normalizations (`IsALineSegment`);
otherwise store the points rotated so that the lexicographically smallest
one comes first. -/
noncomputable def Triangle2.new (a b c : R2) : Except TriangleError Triangle2 :=
  if a = b ∨ a = c ∨ b = c then
    .error .collapsedPoints
  else if (b.sub a).normalize = (c.sub b).normalize then
    .error .isALineSegment
  else
    let m := minPoint a (minPoint b c)
    if a = m then .ok ⟨(a, b, c)⟩
    else if b = m then .ok ⟨(b, c, a)⟩
    else .ok ⟨(c, a, b)⟩

/-! ## C1 — cache correctness of the global-curve approximation -/

/-- C1: `approx_with_cache` on `(&GlobalCurve, RangeOnPath)` returns the
previously computed approximation unchanged when the cache already holds an
entry for the global curve; otherwise the underlying sampler runs exactly
once, its result is inserted into the cache before returning, and a second
call with the same (curve, range, tolerance) returns the identical point
sequence without invoking the sampler again (counts 1 and 0, so the sampler
runs exactly once across both calls). -/
theorem C1_cache_at_most_once :
    (∀ (sample : PathSampler) (curve : GlobalCurveM) (range : RangeOnPath)
        (tolerance : ℚ) (cache : ApproxCache) (approx : GlobalPathApprox),
        cache.globalCurve curve = some approx →
        globalCurveApproxWithCache sample curve range tolerance cache =
          (approx, cache, 0))
  ∧ (∀ (sample : PathSampler) (curve : GlobalCurveM) (range : RangeOnPath)
        (tolerance : ℚ) (cache : ApproxCache),
        cache.globalCurve curve = none →
        ∃ approx cache',
          globalCurveApproxWithCache sample curve range tolerance cache =
            (approx, cache', 1)
          ∧ cache'.globalCurve curve = some approx
          ∧ globalCurveApproxWithCache sample curve range tolerance cache' =
              (approx, cache', 0)) := by
  constructor
  · intro sample curve range tolerance cache approx h
    simp [globalCurveApproxWithCache, h]
  · intro sample curve range tolerance cache h
    refine ⟨⟨(sample curve.path range tolerance).map fun p =>
        ApproxPoint1.mk p.1 p.2⟩,
      ⟨(curve.id, ⟨(sample curve.path range tolerance).map fun p =>
        ApproxPoint1.mk p.1 p.2⟩) :: cache.globalCurves⟩, ?_, ?_, ?_⟩
    · simp [globalCurveApproxWithCache, h, ApproxCache.insertGlobalCurve]
    · simp [ApproxCache.globalCurve]
    · simp [globalCurveApproxWithCache, ApproxCache.globalCurve]

/-! ## C3 — boundary exclusion -/

/-- C3: for any path and half-open range `[start, stop)`, no produced sample
has curve-local coordinate equal to `start` or to `stop`: the two endpoints
of the supplied range are never included in the output. -/
theorem C3_boundary_exclusion (path : GlobalPath) (range : RangeOnPath)
    (n : Nat) (t : ℚ) (hlt : range.start < range.stop)
    (ht : t ∈ pathApproxParams path range n) :
    t ≠ range.start ∧ t ≠ range.stop := by
  cases path with
  | line origin direction => simp [pathApproxParams] at ht
  | circle center radius =>
      unfold pathApproxParams circleParams at ht
      obtain ⟨i, hi, rfl⟩ := List.mem_map.mp ht
      rw [List.mem_range] at hi
      have hd : (0 : ℚ) < range.stop - range.start := sub_pos.mpr hlt
      have hn : (0 : ℚ) < (n : ℚ) + 1 := by positivity
      have hfrac : ((i : ℚ) + 1) / ((n : ℚ) + 1) < 1 := by
        rw [div_lt_one hn]
        exact_mod_cast Nat.succ_lt_succ hi
      have hpos : (0 : ℚ) <
          (range.stop - range.start) * ((i : ℚ) + 1) / ((n : ℚ) + 1) :=
        div_pos (mul_pos hd (by positivity)) hn
      have hupper :
          (range.stop - range.start) * ((i : ℚ) + 1) / ((n : ℚ) + 1) <
            range.stop - range.start := by
        rw [mul_div_assoc]
        calc (range.stop - range.start) * (((i : ℚ) + 1) / ((n : ℚ) + 1))
            < (range.stop - range.start) * 1 :=
              mul_lt_mul_of_pos_left hfrac hd
          _ = range.stop - range.start := mul_one _
      constructor
      · have : range.start <
            range.start +
              (range.stop - range.start) * ((i : ℚ) + 1) / ((n : ℚ) + 1) := by
          linarith
        exact ne_of_gt this
      · have : range.start +
            (range.stop - range.start) * ((i : ℚ) + 1) / ((n : ℚ) + 1) <
              range.stop := by
          linarith
        exact ne_of_lt this

/-- Witness for C3: for the unit circle over the range `[0, 1)` with a single
interior sample, the produced parameter 1/2 differs from both boundaries. -/
theorem C3_boundary_exclusion_witness : (1 : ℚ) / 2 ≠ 0 ∧ (1 : ℚ) / 2 ≠ 1 :=
  C3_boundary_exclusion (.circle ⟨0, 0, 0⟩ 1) ⟨0, 1⟩ 1 (1 / 2) (by norm_num)
    (by simp [pathApproxParams, circleParams]; norm_num)

/-! ## C4 — tetrahedron shell -/

/-- C4: for any 4 input points, `ShellBuilder::tetrahedron` produces a shell
of exactly 4 faces with exactly 6 distinct edge handles; each handle occurs
exactly twice across the faces' edge lists, and every face lists three
pairwise distinct handles — so each of the 6 edges is shared by exactly 2 of
the 4 faces, constructed once and then reused by handle. -/
theorem C4_tetrahedron_shell (a b c d : Pt3) :
    (tetrahedron (a, b, c, d)).length = 4
    ∧ (shellEdgeIds (tetrahedron (a, b, c, d))).dedup.length = 6
    ∧ ((shellEdgeIds (tetrahedron (a, b, c, d))).dedup.all fun e =>
        (shellEdgeIds (tetrahedron (a, b, c, d))).count e == 2) = true
    ∧ ((tetrahedron (a, b, c, d)).all fun f =>
        f.edgeList.dedup.length == 3) = true := by
  have ht : tetrahedron (a, b, c, d) =
      [⟨(a, b, c), (0, 1, 2)⟩, ⟨(a, b, d), (0, 3, 4)⟩,
       ⟨(c, a, d), (2, 4, 5)⟩, ⟨(b, c, d), (1, 5, 3)⟩] := by
    simp only [tetrahedron, faceTriangle]
  have he : shellEdgeIds (tetrahedron (a, b, c, d)) =
      [0, 1, 2, 0, 3, 4, 2, 4, 5, 1, 5, 3] := by
    rw [ht]; rfl
  refine ⟨?_, ?_, ?_, ?_⟩
  · rw [ht]; rfl
  · rw [he]; decide
  · rw [he]; decide
  · rw [ht]; rfl

/-! ## C2 — edge approximation and bounding vertices -/

/-- The concrete curve of the C2 counterexample: curve coordinates are
embedded as the first surface coordinate, and the underlying sampler
produces no interior points. -/
def cexCurve : CurveE := ⟨fun t => ⟨t, 0⟩, fun _ _ => []⟩

/-- The concrete edge of the C2 counterexample: bounded by a vertex at curve
coordinate 0 / global position (0,0,0) and a vertex at curve coordinate 1 /
global position (0,0,1). -/
def cexEdge : EdgeE := ⟨cexCurve, some (⟨0, ⟨0, 0, 0⟩⟩, ⟨1, ⟨0, 0, 1⟩⟩)⟩

/-- C2 counterexample: the approximation of an edge with a bounding-vertex
pair is not the curve's range-approximation with the edge's exact
bounding-vertex positions inserted at *both* ends — the code never appends
the end vertex (it only prepends the start vertex), so the result differs
from the claimed composition. -/
theorem C2_counterexample :
    cexEdge.approx 1 ≠
      (cexCurve.pointFromCurveCoords (0 : ℚ), Pt3.mk 0 0 0)
        :: cexCurve.sample 1 ⟨(0, 2 * Real.pi)⟩
        ++ [(cexCurve.pointFromCurveCoords (1 : ℚ), Pt3.mk 0 0 1)] := by
  simp [EdgeE.approx, cexEdge, cexCurve]

/-- C2 as amended: for an edge with a bounding-vertex pair the approximation
is the curve's range-approximation with the *first* (start) bounding
vertex's exact position — never the sampler's approximation of it —
inserted at the front; the end vertex is not appended (it is supplied by the
neighbouring edge), and an edge without bounding vertices is approximated by
the bare curve approximation. -/
theorem C2_edge_start_vertex :
    (∀ (edge : EdgeE) (tolerance : ℚ) (v₀ v₁ : VertexE),
        edge.vertices = some (v₀, v₁) →
        edge.approx tolerance =
          (edge.curve.pointFromCurveCoords v₀.position, v₀.globalPosition)
            :: edge.curve.sample tolerance ⟨(0, 2 * Real.pi)⟩)
  ∧ (∀ (edge : EdgeE) (tolerance : ℚ),
        edge.vertices = none →
        edge.approx tolerance =
          edge.curve.sample tolerance ⟨(0, 2 * Real.pi)⟩) := by
  constructor
  · intro edge tolerance v₀ v₁ h
    simp [EdgeE.approx, h]
  · intro edge tolerance h
    simp [EdgeE.approx, h]

/-! ## C7 — sweep side walls -/

/-- C7: sweeping a boundary edge that is self-connected (no bounding
vertices, e.g. a full circle) produces exactly two cycles — one holding the
original edge and one holding the translated copy — while an edge with a
bounding-vertex pair produces a single four-edge cycle (edge, swept start
vertex, translated edge, swept end vertex). -/
theorem C7_sweep_side_wall :
    (∀ (edge : EdgeT) (length : ℚ), edge.vertices = none →
        (sweepSideWall edge length).cycles =
          [⟨[edge]⟩, ⟨[edge.translateZ length]⟩])
  ∧ (∀ (edge : EdgeT) (length : ℚ) (a b : Vertex1),
        edge.vertices = some (a, b) →
        (sweepSideWall edge length).cycles =
          [⟨[edge, EdgeT.sweepVertex a.canonical ⟨0, 0, length⟩,
             edge.translateZ length,
             EdgeT.sweepVertex b.canonical ⟨0, 0, length⟩]⟩]) := by
  constructor
  · intro edge length h
    simp [sweepSideWall, h]
  · intro edge length a b h
    simp [sweepSideWall, h, EdgesT.singleCycle]

/-! ## C10 — vertex deduplication -/

theorem meshMaker_push_preserves {V : Type} [DecidableEq V] (m : MeshMaker V)
    (v : V) (h₁ : m.vertices.Nodup)
    (h₂ : ∀ i ∈ m.indices, i < m.vertices.length) :
    (m.push v).vertices.Nodup
    ∧ ∀ i ∈ (m.push v).indices, i < (m.push v).vertices.length := by
  cases hf : m.vertices.findIdx? (· == v) with
  | some pos =>
      obtain ⟨hlt, -, -⟩ := List.findIdx?_eq_some_iff_getElem.mp hf
      refine ⟨by simpa [MeshMaker.push, hf] using h₁, ?_⟩
      intro i hi
      simp only [MeshMaker.push, hf] at hi ⊢
      rcases List.mem_append.mp hi with hi | hi
      · exact h₂ i hi
      · simp only [List.mem_singleton] at hi
        subst hi
        exact hlt
  | none =>
      have hv : v ∉ m.vertices := by
        intro hv
        have := List.findIdx?_eq_none_iff.mp hf v hv
        simp at this
      constructor
      · simp only [MeshMaker.push, hf]
        refine List.Nodup.append h₁ (List.nodup_singleton v) ?_
        intro a ha hav
        rw [List.mem_singleton] at hav
        subst hav
        exact hv ha
      · intro i hi
        simp only [MeshMaker.push, hf, List.length_append,
          List.length_singleton] at hi ⊢
        rcases List.mem_append.mp hi with hi | hi
        · exact Nat.lt_succ_of_lt (h₂ i hi)
        · simp only [List.mem_singleton] at hi
          subst hi
          exact Nat.lt_succ_self _

theorem meshMaker_push_duplicate {V : Type} [DecidableEq V] (m : MeshMaker V)
    (v : V) (hv : v ∈ m.vertices) :
    ∃ i, (m.push v).vertices = m.vertices
      ∧ (m.push v).indices = m.indices ++ [i]
      ∧ m.vertices[i]? = some v := by
  have hex : ∃ x, x ∈ m.vertices ∧ (x == v) = true :=
    ⟨v, hv, beq_self_eq_true v⟩
  have hf := List.findIdx?_eq_some_of_exists hex
  obtain ⟨hlt, hp, -⟩ := List.findIdx?_eq_some_iff_getElem.mp hf
  refine ⟨m.vertices.findIdx (· == v), ?_, ?_, ?_⟩
  · simp [MeshMaker.push, hf]
  · simp [MeshMaker.push, hf]
  · rw [List.getElem?_eq_getElem hlt]
    exact congrArg some (eq_of_beq hp)

/-- The invariant `Mesh::push_vertex` maintains: no duplicate vertices, all
emitted indices in bounds, and the vertex-to-index map agrees exactly with
the positions of the stored vertices. -/
def meshInv {V : Type} [DecidableEq V] (m : Mesh V) : Prop :=
  m.vertices.Nodup
  ∧ (∀ i ∈ m.indices, i < m.vertices.length)
  ∧ ∀ (v : V) (i : Nat),
      assocIndex m.indicesByVertex v = some i ↔ m.vertices[i]? = some v

theorem assocIndex_append_single {V : Type} [DecidableEq V]
    (map : List (V × Nat)) (v w : V) (k : Nat) :
    assocIndex (map ++ [(v, k)]) w =
      (assocIndex map w).or (if v = w then some k else none) := by
  cases h : map.find? (fun entry => entry.1 == w) with
  | some e => simp [assocIndex, List.find?_append, h]
  | none =>
      simp only [assocIndex, List.find?_append, h, Option.map_none',
        Option.none_or]
      by_cases hw : v = w
      · subst hw
        simp [List.find?_cons]
      · simp [List.find?_cons, hw]

theorem mesh_pushVertex_preserves {V : Type} [DecidableEq V] (m : Mesh V)
    (v : V) (h : meshInv m) : meshInv (m.pushVertex v) := by
  obtain ⟨h₁, h₂, h₃⟩ := h
  cases hf : assocIndex m.indicesByVertex v with
  | some i =>
      have hi : m.vertices[i]? = some v := (h₃ v i).mp hf
      have hlt : i < m.vertices.length := by
        by_contra hge
        rw [List.getElem?_len_le (Nat.le_of_not_lt hge)] at hi
        exact Option.noConfusion hi
      refine ⟨?_, ?_, ?_⟩
      · simpa [Mesh.pushVertex, hf] using h₁
      · intro j hj
        simp only [Mesh.pushVertex, hf] at hj ⊢
        rcases List.mem_append.mp hj with hj | hj
        · exact h₂ j hj
        · simp only [List.mem_singleton] at hj
          subst hj
          exact hlt
      · intro w j
        simpa [Mesh.pushVertex, hf] using h₃ w j
  | none =>
      have hv : v ∉ m.vertices := by
        intro hv
        obtain ⟨j, hj⟩ := List.mem_iff_getElem?.mp hv
        rw [(h₃ v j).mpr hj] at hf
        exact Option.noConfusion hf
      refine ⟨?_, ?_, ?_⟩
      · simp only [Mesh.pushVertex, hf]
        refine List.Nodup.append h₁ (List.nodup_singleton v) ?_
        intro a ha hav
        rw [List.mem_singleton] at hav
        subst hav
        exact hv ha
      · intro j hj
        simp only [Mesh.pushVertex, hf, List.length_append,
          List.length_singleton] at hj ⊢
        rcases List.mem_append.mp hj with hj | hj
        · exact Nat.lt_succ_of_lt (h₂ j hj)
        · simp only [List.mem_singleton] at hj
          subst hj
          exact Nat.lt_succ_self _
      · intro w j
        simp only [Mesh.pushVertex, hf]
        rw [assocIndex_append_single]
        by_cases hw : w = v
        · subst hw
          rw [hf, Option.none_or, if_pos rfl]
          constructor
          · intro hj
            obtain rfl : m.vertices.length = j := Option.some.inj hj
            exact List.getElem?_concat_length _ _
          · intro hj
            rcases Nat.lt_trichotomy j m.vertices.length with hlt | heq | hgt
            · rw [List.getElem?_append_left hlt] at hj
              exact Option.noConfusion (((h₃ w j).mpr hj).symm.trans hf)
            · rw [heq]
            · rw [List.getElem?_len_le
                (by rw [List.length_append, List.length_singleton]; omega)] at hj
              exact Option.noConfusion hj
        · rw [if_neg fun h => hw h.symm, Option.or_none]
          constructor
          · intro hj
            have hjv := (h₃ w j).mp hj
            have hlt : j < m.vertices.length := by
              by_contra hge
              rw [List.getElem?_len_le (Nat.le_of_not_lt hge)] at hjv
              exact Option.noConfusion hjv
            rw [List.getElem?_append_left hlt]
            exact hjv
          · intro hj
            apply (h₃ w j).mpr
            rcases Nat.lt_trichotomy j m.vertices.length with hlt | heq | hgt
            · rw [List.getElem?_append_left hlt] at hj
              exact hj
            · exfalso
              rw [heq, List.getElem?_concat_length] at hj
              exact hw (Option.some.inj hj).symm
            · exfalso
              rw [List.getElem?_len_le
                (by rw [List.length_append, List.length_singleton]; omega)] at hj
              exact Option.noConfusion hj

theorem mesh_pushVertex_duplicate {V : Type} [DecidableEq V] (m : Mesh V)
    (v : V) (h : meshInv m) (hv : v ∈ m.vertices) :
    ∃ i, (m.pushVertex v).vertices = m.vertices
      ∧ (m.pushVertex v).indices = m.indices ++ [i]
      ∧ m.vertices[i]? = some v := by
  obtain ⟨j, hj⟩ := List.mem_iff_getElem?.mp hv
  have hf : assocIndex m.indicesByVertex v = some j := (h.2.2 v j).mpr hj
  exact ⟨j, by simp [Mesh.pushVertex, hf], by simp [Mesh.pushVertex, hf], hj⟩

theorem mesh_pushAll_inv {V : Type} [DecidableEq V] (vs : List V) :
    meshInv ((Mesh.new V).pushVertexAll vs) := by
  suffices h : ∀ (m : Mesh V), meshInv m → meshInv (m.pushVertexAll vs) by
    refine h _ ⟨List.nodup_nil, by simp [Mesh.new], ?_⟩
    intro w j
    simp [Mesh.new, assocIndex]
  induction vs with
  | nil => exact fun m hm => hm
  | cons v vs ih => exact fun m hm => ih _ (mesh_pushVertex_preserves m v hm)

theorem meshMaker_pushAll_inv {V : Type} [DecidableEq V] (vs : List V) :
    ((MeshMaker.new V).pushAll vs).vertices.Nodup
    ∧ ∀ i ∈ ((MeshMaker.new V).pushAll vs).indices,
        i < ((MeshMaker.new V).pushAll vs).vertices.length := by
  suffices h : ∀ (m : MeshMaker V), m.vertices.Nodup →
      (∀ i ∈ m.indices, i < m.vertices.length) →
      (m.pushAll vs).vertices.Nodup
      ∧ ∀ i ∈ (m.pushAll vs).indices, i < (m.pushAll vs).vertices.length by
    exact h _ List.nodup_nil (by simp [MeshMaker.new])
  induction vs with
  | nil => exact fun m hm₁ hm₂ => ⟨hm₁, hm₂⟩
  | cons v vs ih =>
      intro m hm₁ hm₂
      have h := meshMaker_push_preserves m v hm₁ hm₂
      exact ih _ h.1 h.2

/-- C10: after any sequence of vertex pushes (both `MeshMaker::push` and
`Mesh::push_vertex`, each starting from the empty container) the stored
vertex list has no duplicates and every emitted index is strictly below the
number of stored vertices; pushing a vertex equal to one already stored
appends no new vertex and emits the index of the existing one; and pushing
the same vertex twice yields one stored vertex and two identical index
references to it. -/
theorem C10_vertex_dedup :
    (∀ (V : Type) [DecidableEq V] (vs : List V),
        ((MeshMaker.new V).pushAll vs).vertices.Nodup
        ∧ (∀ i ∈ ((MeshMaker.new V).pushAll vs).indices,
            i < ((MeshMaker.new V).pushAll vs).vertices.length)
        ∧ ∀ v ∈ ((MeshMaker.new V).pushAll vs).vertices,
            ∃ i, (((MeshMaker.new V).pushAll vs).push v).vertices =
                  ((MeshMaker.new V).pushAll vs).vertices
              ∧ (((MeshMaker.new V).pushAll vs).push v).indices =
                  ((MeshMaker.new V).pushAll vs).indices ++ [i]
              ∧ ((MeshMaker.new V).pushAll vs).vertices[i]? = some v)
  ∧ (∀ (V : Type) [DecidableEq V] (vs : List V),
        ((Mesh.new V).pushVertexAll vs).vertices.Nodup
        ∧ (∀ i ∈ ((Mesh.new V).pushVertexAll vs).indices,
            i < ((Mesh.new V).pushVertexAll vs).vertices.length)
        ∧ ∀ v ∈ ((Mesh.new V).pushVertexAll vs).vertices,
            ∃ i, (((Mesh.new V).pushVertexAll vs).pushVertex v).vertices =
                  ((Mesh.new V).pushVertexAll vs).vertices
              ∧ (((Mesh.new V).pushVertexAll vs).pushVertex v).indices =
                  ((Mesh.new V).pushVertexAll vs).indices ++ [i]
              ∧ ((Mesh.new V).pushVertexAll vs).vertices[i]? = some v)
  ∧ (∀ (V : Type) [DecidableEq V] (v : V),
        ((MeshMaker.new V).push v).push v = ⟨[v], [0, 0]⟩)
  ∧ (∀ (V : Type) [DecidableEq V] (v : V),
        (((Mesh.new V).pushVertex v).pushVertex v).vertices = [v]
        ∧ (((Mesh.new V).pushVertex v).pushVertex v).indices = [0, 0]) := by
  refine ⟨?_, ?_, ?_, ?_⟩
  · intro V inst vs
    obtain ⟨h₁, h₂⟩ := meshMaker_pushAll_inv vs
    exact ⟨h₁, h₂, fun v hv => meshMaker_push_duplicate _ v hv⟩
  · intro V inst vs
    obtain ⟨h₁, h₂, h₃⟩ := mesh_pushAll_inv (V := V) vs
    exact ⟨h₁, h₂, fun v hv =>
      mesh_pushVertex_duplicate _ v ⟨h₁, h₂, h₃⟩ hv⟩
  · intro V inst v
    simp [MeshMaker.push, MeshMaker.new, List.findIdx?_cons]
  · intro V inst v
    constructor <;>
      simp [Mesh.pushVertex, Mesh.new, assocIndex, List.find?_cons]

/-! ## C5, C6 — plane projection -/

/-- `point_model_to_surface` written with the incidence test in geometric
form: the code's `a*x + b*y + c*z + d` numerator is the dot product of
`point - origin` with the normal `u × v`, and its `sqrt(a*a + b*b + c*c)`
denominator is the normal's norm. -/
theorem pointModelToSurface_eval (plane : Plane) (point : R3) :
    plane.pointModelToSurface point =
      if |(point.sub plane.origin).dot (plane.u.cross plane.v)| /
          (plane.u.cross plane.v).norm > defaultEpsilon then none
      else some ⟨(point.sub plane.origin).dot plane.u.normalize,
                 (point.sub plane.origin).dot plane.v.normalize⟩ := by
  simp only [Plane.pointModelToSurface]
  have heq : ∀ n o p : R3,
      n.x * p.x + n.y * p.y + n.z * p.z +
        -(n.x * o.x + n.y * o.y + n.z * o.z) = (p.sub o).dot n := by
    intro n o p
    simp only [R3.sub, R3.dot]
    ring
  rw [heq]
  rfl

/-- The plane of the spec's projection scenario: origin (1,2,3),
u = (0,1,0), v = (0,0,1). -/
def testPlane : Plane := ⟨⟨1, 2, 3⟩, ⟨0, 1, 0⟩, ⟨0, 0, 1⟩⟩

/-- C5: `point_model_to_surface` fails exactly when the point's distance to
the plane (measured through the normal `u × v`) exceeds the fixed epsilon
`f64::EPSILON`, and otherwise returns the scalar projections of
`point - origin` onto the two normalized basis directions; in particular,
for the plane with origin (1,2,3), u = (0,1,0), v = (0,0,1), projecting the
model point (1,4,6) succeeds with surface point (2,3), and projecting
(2,4,6) fails. -/
theorem C5_plane_projection :
    (∀ (plane : Plane) (point : R3),
        plane.pointModelToSurface point = none ↔
          |(point.sub plane.origin).dot (plane.u.cross plane.v)| /
              (plane.u.cross plane.v).norm > defaultEpsilon)
  ∧ (∀ (plane : Plane) (point : R3),
        |(point.sub plane.origin).dot (plane.u.cross plane.v)| /
            (plane.u.cross plane.v).norm ≤ defaultEpsilon →
        plane.pointModelToSurface point =
          some ⟨(point.sub plane.origin).dot plane.u.normalize,
                (point.sub plane.origin).dot plane.v.normalize⟩)
  ∧ testPlane.pointModelToSurface ⟨1, 4, 6⟩ = some ⟨2, 3⟩
  ∧ testPlane.pointModelToSurface ⟨2, 4, 6⟩ = none := by
  refine ⟨?_, ?_, ?_, ?_⟩
  · intro plane point
    rw [pointModelToSurface_eval]
    split_ifs with h
    · simpa using h
    · simpa using h
  · intro plane point h
    rw [pointModelToSurface_eval, if_neg (not_lt.mpr h)]
  · rw [pointModelToSurface_eval]
    norm_num [testPlane, R3.cross, R3.sub, R3.dot, R3.norm, R3.normalize,
      defaultEpsilon, Real.sqrt_one]
  · rw [pointModelToSurface_eval]
    norm_num [testPlane, R3.cross, R3.sub, R3.dot, R3.norm,
      defaultEpsilon, Real.sqrt_one]

/-- A plane whose first basis direction is not unit length: u = (2,0,0). -/
def skewPlane : Plane := ⟨⟨0, 0, 0⟩, ⟨2, 0, 0⟩, ⟨0, 1, 0⟩⟩

/-- C6 counterexample: for a plane with a non-unit basis direction the
claimed round-trip fails on a point that lies on the plane.  The model
point (2,0,0) lies on `skewPlane` (it is the image of the surface point
(1,0)); `point_model_to_surface` sends it to the surface point (2,0)
(projection onto the *normalized* u), but `point_surface_to_model` sends
(2,0) to (4,0,0) ≠ (2,0,0) (it scales by the *unnormalized* u), so the two
conversions do not round-trip on this on-plane point. -/
theorem C6_counterexample :
    skewPlane.pointSurfaceToModel ⟨1, 0⟩ = ⟨2, 0, 0⟩
    ∧ skewPlane.pointModelToSurface ⟨2, 0, 0⟩ = some ⟨2, 0⟩
    ∧ skewPlane.pointSurfaceToModel ⟨2, 0⟩ ≠ ⟨2, 0, 0⟩ := by
  have sqrt4 : Real.sqrt 4 = 2 := by
    rw [show (4 : ℝ) = 2 ^ 2 by norm_num, Real.sqrt_sq (by norm_num : (0:ℝ) ≤ 2)]
  refine ⟨?_, ?_, ?_⟩
  · norm_num [skewPlane, Plane.pointSurfaceToModel, Plane.vectorSurfaceToModel,
      R3.add, R3.smul, R3.mk.injEq]
  · rw [pointModelToSurface_eval]
    norm_num [skewPlane, R3.cross, R3.sub, R3.dot, R3.norm, R3.normalize,
      defaultEpsilon, Real.sqrt_one, sqrt4]
  · norm_num [skewPlane, Plane.pointSurfaceToModel, Plane.vectorSurfaceToModel,
      R3.add, R3.smul, R3.mk.injEq]

/-- C6 as amended: `point_surface_to_model` and `vector_surface_to_model`
are total (they are plain functions with no failure case in the embedding,
as in the code), and for a plane whose basis directions `u`, `v` are
*orthonormal*, the conversions round-trip on every point of the plane: the
model point of surface coordinates (s,t) projects back to exactly (s,t),
and mapping those surface coordinates returns exactly that model point. -/
theorem C6_round_trip (plane : Plane) (s t : ℝ)
    (hu : plane.u.dot plane.u = 1) (hv : plane.v.dot plane.v = 1)
    (huv : plane.u.dot plane.v = 0) :
    plane.pointModelToSurface (plane.pointSurfaceToModel ⟨s, t⟩) = some ⟨s, t⟩
    ∧ plane.pointSurfaceToModel ⟨s, t⟩ =
        plane.origin.add ((plane.u.smul s).add (plane.v.smul t)) := by
  have hnu : plane.u.norm = 1 := by
    have h : plane.u.norm = Real.sqrt (plane.u.dot plane.u) := rfl
    rw [h, hu, Real.sqrt_one]
  have hnv : plane.v.norm = 1 := by
    have h : plane.v.norm = Real.sqrt (plane.v.dot plane.v) := rfl
    rw [h, hv, Real.sqrt_one]
  constructor
  · rw [pointModelToSurface_eval]
    have hnum : ((plane.pointSurfaceToModel ⟨s, t⟩).sub plane.origin).dot
        (plane.u.cross plane.v) = 0 := by
      simp only [Plane.pointSurfaceToModel, Plane.vectorSurfaceToModel,
        R3.add, R3.smul, R3.sub, R3.dot, R3.cross]
      ring
    rw [hnum, abs_zero, zero_div,
      if_neg (by norm_num [defaultEpsilon])]
    have h1 : ((plane.pointSurfaceToModel ⟨s, t⟩).sub plane.origin).dot
        plane.u.normalize = s := by
      simp only [R3.normalize, hnu, div_one, Plane.pointSurfaceToModel,
        Plane.vectorSurfaceToModel, R3.add, R3.smul, R3.sub, R3.dot]
      simp only [R3.dot] at hu huv
      linear_combination s * hu + t * huv
    have h2 : ((plane.pointSurfaceToModel ⟨s, t⟩).sub plane.origin).dot
        plane.v.normalize = t := by
      simp only [R3.normalize, hnv, div_one, Plane.pointSurfaceToModel,
        Plane.vectorSurfaceToModel, R3.add, R3.smul, R3.sub, R3.dot]
      simp only [R3.dot] at hv huv
      linear_combination t * hv + s * huv
    rw [h1, h2]
  · rfl

/-- Witness for C6 as amended, at the scenario plane (whose u, v are
orthonormal) and the surface point (2,3). -/
theorem C6_round_trip_witness :
    testPlane.pointModelToSurface (testPlane.pointSurfaceToModel ⟨2, 3⟩) =
      some ⟨2, 3⟩
    ∧ testPlane.pointSurfaceToModel ⟨2, 3⟩ =
        testPlane.origin.add ((testPlane.u.smul 2).add (testPlane.v.smul 3)) :=
  C6_round_trip testPlane 2 3 (by norm_num [testPlane, R3.dot])
    (by norm_num [testPlane, R3.dot]) (by norm_num [testPlane, R3.dot])

/-! ## C8, C9 — triangle construction -/

open Classical in
/-- `Triangle::new` once both degeneracy guards are known to fail: only the
canonical rotation remains. -/
theorem triangle2_new_eval (a b c : R2)
    (h₁ : ¬(a = b ∨ a = c ∨ b = c))
    (h₂ : (b.sub a).normalize ≠ (c.sub b).normalize) :
    Triangle2.new a b c =
      (if a = minPoint a (minPoint b c) then Except.ok ⟨(a, b, c)⟩
       else if b = minPoint a (minPoint b c) then Except.ok ⟨(b, c, a)⟩
       else Except.ok ⟨(c, a, b)⟩) := by
  unfold Triangle2.new
  rw [if_neg h₁, if_neg h₂]

/-- A successful `Triangle::new` implies both degeneracy guards failed. -/
theorem triangle2_new_ok {a b c : R2} {tri : Triangle2}
    (h : Triangle2.new a b c = .ok tri) :
    ¬(a = b ∨ a = c ∨ b = c)
    ∧ (b.sub a).normalize ≠ (c.sub b).normalize := by
  by_cases h₁ : a = b ∨ a = c ∨ b = c
  · unfold Triangle2.new at h
    rw [if_pos h₁] at h
    exact absurd h (by simp)
  by_cases h₂ : (b.sub a).normalize = (c.sub b).normalize
  · unfold Triangle2.new at h
    rw [if_neg h₁, if_pos h₂] at h
    exact absurd h (by simp)
  exact ⟨h₁, h₂⟩

/-- Three points are collinear: the cross product of b − a and c − a
vanishes. -/
def collinearPts (a b c : R2) : Prop :=
  (b.x - a.x) * (c.y - a.y) - (b.y - a.y) * (c.x - a.x) = 0

/-- C8: equal-point inputs are rejected with the collapsed-points error, but
the three *distinct collinear* points (0,0), (2,2), (1,1) — the middle point
passed last — are accepted: `Triangle::new` returns `Ok`, constructing a
degenerate line-segment triangle, because the check
`(b - a).normalize() == (c - b).normalize()` only catches collinear points
whose difference vectors point in the *same* direction. -/
theorem C8_collinear_accepted :
    (∀ (a b c : R2), (a = b ∨ a = c ∨ b = c) →
        Triangle2.new a b c = .error .collapsedPoints)
    ∧ ((R2.mk 0 0 ≠ ⟨2, 2⟩) ∧ (R2.mk 0 0 ≠ ⟨1, 1⟩) ∧ (R2.mk 2 2 ≠ ⟨1, 1⟩))
    ∧ collinearPts ⟨0, 0⟩ ⟨2, 2⟩ ⟨1, 1⟩
    ∧ ∃ tri, Triangle2.new ⟨0, 0⟩ ⟨2, 2⟩ ⟨1, 1⟩ = .ok tri := by
  refine ⟨?_, ?_, ?_, ?_⟩
  · intro a b c h
    unfold Triangle2.new
    rw [if_pos h]
  · norm_num [R2.mk.injEq]
  · norm_num [collinearPts]
  · have h₁ : ¬((R2.mk 0 0) = ⟨2, 2⟩ ∨ (R2.mk 0 0) = ⟨1, 1⟩ ∨
        (R2.mk 2 2) = ⟨1, 1⟩) := by
      norm_num [R2.mk.injEq]
    have hs2 : (0 : ℝ) < Real.sqrt 2 := Real.sqrt_pos.mpr (by norm_num)
    have hs8 : (0 : ℝ) < Real.sqrt 8 := Real.sqrt_pos.mpr (by norm_num)
    have h₂ : (R2.sub ⟨2, 2⟩ ⟨0, 0⟩).normalize ≠
        (R2.sub ⟨1, 1⟩ ⟨2, 2⟩).normalize := by
      intro heq
      have hx := congrArg R2.x heq
      simp only [R2.sub, R2.normalize, R2.norm] at hx
      norm_num at hx
      have hpos : (0 : ℝ) < 2 / Real.sqrt 8 := by positivity
      have hneg : (-1 : ℝ) / Real.sqrt 2 < 0 :=
        div_neg_of_neg_of_pos (by norm_num) hs2
      rw [hx] at hpos
      linarith
    rw [triangle2_new_eval _ _ _ h₁ h₂]
    split_ifs <;> exact ⟨_, rfl⟩

/-- The lexicographic key of a 2-d point is injective. -/
theorem r2LexKey_inj {p q : R2} (h : p.lexKey = q.lexKey) : p = q := by
  cases p; cases q
  simpa [R2.lexKey, Prod.ext_iff] using h

/-- `minPoint` computes the key-minimum of its arguments. -/
theorem minPoint_key (p q : R2) :
    (minPoint p q).lexKey = min p.lexKey q.lexKey := by
  unfold minPoint
  split_ifs with h
  · exact (min_eq_right h.le).symm
  · exact (min_eq_left (not_lt.mp h)).symm

/-- Canonical rotation: the three cyclic rotations of a valid triangle's
points produce the same stored point order. -/
theorem triangle2_rotation (a b c : R2) (t₁ t₂ t₃ : Triangle2)
    (h1 : Triangle2.new a b c = .ok t₁)
    (h2 : Triangle2.new b c a = .ok t₂)
    (h3 : Triangle2.new c a b = .ok t₃) :
    t₁.points = t₂.points ∧ t₂.points = t₃.points := by
  obtain ⟨hd1, hn1⟩ := triangle2_new_ok h1
  obtain ⟨hd2, hn2⟩ := triangle2_new_ok h2
  obtain ⟨hd3, hn3⟩ := triangle2_new_ok h3
  have hab : a ≠ b := fun h => hd1 (Or.inl h)
  have hac : a ≠ c := fun h => hd1 (Or.inr (Or.inl h))
  have hbc : b ≠ c := fun h => hd1 (Or.inr (Or.inr h))
  rw [triangle2_new_eval a b c hd1 hn1] at h1
  rw [triangle2_new_eval b c a hd2 hn2] at h2
  rw [triangle2_new_eval c a b hd3 hn3] at h3
  have habc : (minPoint a (minPoint b c)).lexKey =
      min a.lexKey (min b.lexKey c.lexKey) := by
    rw [minPoint_key, minPoint_key]
  have hbca : (minPoint b (minPoint c a)).lexKey =
      min a.lexKey (min b.lexKey c.lexKey) := by
    rw [minPoint_key, minPoint_key, min_comm c.lexKey a.lexKey]
    exact (min_left_comm _ _ _).symm
  have hcab : (minPoint c (minPoint a b)).lexKey =
      min a.lexKey (min b.lexKey c.lexKey) := by
    rw [minPoint_key, minPoint_key, min_left_comm,
      min_comm c.lexKey b.lexKey]
  rcases min_choice a.lexKey (min b.lexKey c.lexKey) with hK | hK
  · -- the minimum is a
    have m1 : minPoint a (minPoint b c) = a := r2LexKey_inj (habc.trans hK)
    have m2 : minPoint b (minPoint c a) = a := r2LexKey_inj (hbca.trans hK)
    have m3 : minPoint c (minPoint a b) = a := r2LexKey_inj (hcab.trans hK)
    rw [m1, if_pos rfl] at h1
    rw [m2, if_neg (Ne.symm hab), if_neg (Ne.symm hac)] at h2
    rw [m3, if_neg (fun h => hac h.symm), if_pos rfl] at h3
    rw [← Except.ok.inj h1, ← Except.ok.inj h2, ← Except.ok.inj h3]
    exact ⟨rfl, rfl⟩
  rcases min_choice b.lexKey c.lexKey with hK2 | hK2
  · -- the minimum is b
    have hKb : min a.lexKey (min b.lexKey c.lexKey) = b.lexKey :=
      hK.trans hK2
    have m1 : minPoint a (minPoint b c) = b := r2LexKey_inj (habc.trans hKb)
    have m2 : minPoint b (minPoint c a) = b := r2LexKey_inj (hbca.trans hKb)
    have m3 : minPoint c (minPoint a b) = b := r2LexKey_inj (hcab.trans hKb)
    rw [m1, if_neg hab, if_pos rfl] at h1
    rw [m2, if_pos rfl] at h2
    rw [m3, if_neg (Ne.symm hbc), if_neg hab] at h3
    rw [← Except.ok.inj h1, ← Except.ok.inj h2, ← Except.ok.inj h3]
    exact ⟨rfl, rfl⟩
  · -- the minimum is c
    have hKc : min a.lexKey (min b.lexKey c.lexKey) = c.lexKey :=
      hK.trans hK2
    have m1 : minPoint a (minPoint b c) = c := r2LexKey_inj (habc.trans hKc)
    have m2 : minPoint b (minPoint c a) = c := r2LexKey_inj (hbca.trans hKc)
    have m3 : minPoint c (minPoint a b) = c := r2LexKey_inj (hcab.trans hKc)
    rw [m1, if_neg hac, if_neg hbc] at h1
    rw [m2, if_neg hbc, if_pos rfl] at h2
    rw [m3, if_pos rfl] at h3
    rw [← Except.ok.inj h1, ← Except.ok.inj h2, ← Except.ok.inj h3]
    exact ⟨rfl, rfl⟩

/-- C9: `Triangle::new` stores the same point order for all three cyclic
rotations of a valid triangle's corners, and the mesh containment check
recognizes a stored triangle under reversed winding as the same geometric
triangle. -/
theorem C9_triangle_canonical_form :
    (∀ (a b c : R2) (t₁ t₂ t₃ : Triangle2),
        Triangle2.new a b c = .ok t₁ → Triangle2.new b c a = .ok t₂ →
        Triangle2.new c a b = .ok t₃ →
        t₁.points = t₂.points ∧ t₂.points = t₃.points)
  ∧ (∀ (V : Type) (m : Mesh V) (a b c : Pt3) (col : Color),
        (⟨(a, b, c), col⟩ : MTriangle) ∈ m.triangles →
        m.containsTriangle (c, b, a) = true) := by
  constructor
  · exact fun a b c t₁ t₂ t₃ h1 h2 h3 =>
      triangle2_rotation a b c t₁ t₂ t₃ h1 h2 h3
  · intro V m a b c col hmem
    unfold Mesh.containsTriangle
    rw [List.any_eq_true]
    refine ⟨⟨(a, b, c), col⟩, hmem, ?_⟩
    rw [decide_eq_true_eq]
    show List.insertionSort ptLe [c, b, a] = List.insertionSort ptLe [a, b, c]
    have hperm : ([c, b, a] : List Pt3).Perm [a, b, c] := by
      have hrev : ([c, b, a] : List Pt3) = ([a, b, c] : List Pt3).reverse := rfl
      rw [hrev]
      exact List.reverse_perm _
    exact List.eq_of_perm_of_sorted
      ((List.perm_insertionSort ptLe [c, b, a]).trans
        (hperm.trans (List.perm_insertionSort ptLe [a, b, c]).symm))
      (List.sorted_insertionSort ptLe _)
      (List.sorted_insertionSort ptLe _)

/-- Witness for C9 at the concrete triangle (0,0), (0,1), (1,1) — all three
rotations of `Triangle::new` succeed and store the same point order — and at
a concrete one-triangle mesh, whose reversed-winding copy the containment
check recognizes. -/
theorem C9_triangle_canonical_form_witness :
    ((Triangle2.mk ((⟨0, 0⟩ : R2), ⟨0, 1⟩, ⟨1, 1⟩)).points =
        (Triangle2.mk ((⟨0, 0⟩ : R2), ⟨0, 1⟩, ⟨1, 1⟩)).points
      ∧ (Triangle2.mk ((⟨0, 0⟩ : R2), ⟨0, 1⟩, ⟨1, 1⟩)).points =
        (Triangle2.mk ((⟨0, 0⟩ : R2), ⟨0, 1⟩, ⟨1, 1⟩)).points)
    ∧ ((Mesh.new Pt3).pushTriangle (⟨0, 0, 0⟩, ⟨1, 0, 0⟩, ⟨0, 1, 0⟩)
        (255, 0, 0, 255)).containsTriangle
          (⟨0, 1, 0⟩, ⟨1, 0, 0⟩, ⟨0, 0, 0⟩) = true := by
  have hs2 : (0 : ℝ) < Real.sqrt 2 := Real.sqrt_pos.mpr (by norm_num)
  have key_lt : ∀ p q : R2,
      (p.lexKey < q.lexKey) ↔ (p.x < q.x ∨ (p.x = q.x ∧ p.y < q.y)) :=
    fun p q => Prod.Lex.lt_iff _ _
  have hmA : minPoint (⟨0, 1⟩ : R2) ⟨1, 1⟩ = (⟨0, 1⟩ : R2) := by
    unfold minPoint
    rw [if_neg (by rw [key_lt]; norm_num)]
  have hmB : minPoint (⟨0, 0⟩ : R2) ⟨0, 1⟩ = (⟨0, 0⟩ : R2) := by
    unfold minPoint
    rw [if_neg (by rw [key_lt]; norm_num)]
  have hmC : minPoint (⟨1, 1⟩ : R2) ⟨0, 0⟩ = (⟨0, 0⟩ : R2) := by
    unfold minPoint
    rw [if_pos (by rw [key_lt]; norm_num)]
  have hmD : minPoint (⟨0, 1⟩ : R2) ⟨0, 0⟩ = (⟨0, 0⟩ : R2) := by
    unfold minPoint
    rw [if_pos (by rw [key_lt]; norm_num)]
  have hn1 : (R2.sub ⟨0, 1⟩ ⟨0, 0⟩).normalize ≠
      (R2.sub ⟨1, 1⟩ ⟨0, 1⟩).normalize := by
    intro heq
    have hx := congrArg R2.x heq
    simp only [R2.sub, R2.normalize, R2.norm] at hx
    norm_num [Real.sqrt_one] at hx
  have hn2 : (R2.sub ⟨1, 1⟩ ⟨0, 1⟩).normalize ≠
      (R2.sub ⟨0, 0⟩ ⟨1, 1⟩).normalize := by
    intro heq
    have hx := congrArg R2.x heq
    simp only [R2.sub, R2.normalize, R2.norm] at hx
    have hL : (0 : ℝ) <
        (1 - 0) / Real.sqrt ((1 - 0) * (1 - 0) + (1 - 1) * (1 - 1)) := by
      positivity
    rw [hx] at hL
    have hR : ((0 : ℝ) - 1) /
        Real.sqrt ((0 - 1) * (0 - 1) + (0 - 1) * (0 - 1)) < 0 := by
      apply div_neg_of_neg_of_pos (by norm_num)
      exact Real.sqrt_pos.mpr (by norm_num)
    linarith
  have hn3 : (R2.sub ⟨0, 0⟩ ⟨1, 1⟩).normalize ≠
      (R2.sub ⟨0, 1⟩ ⟨0, 0⟩).normalize := by
    intro heq
    have hx := congrArg R2.x heq
    simp only [R2.sub, R2.normalize, R2.norm] at hx
    have hL : ((0 : ℝ) - 1) /
        Real.sqrt ((0 - 1) * (0 - 1) + (0 - 1) * (0 - 1)) < 0 := by
      apply div_neg_of_neg_of_pos (by norm_num)
      exact Real.sqrt_pos.mpr (by norm_num)
    rw [hx] at hL
    norm_num [Real.sqrt_one] at hL
  have hOk1 : Triangle2.new ⟨0, 0⟩ ⟨0, 1⟩ ⟨1, 1⟩ =
      .ok ⟨((⟨0, 0⟩ : R2), ⟨0, 1⟩, ⟨1, 1⟩)⟩ := by
    rw [triangle2_new_eval _ _ _ (by norm_num [R2.mk.injEq]) hn1,
      hmA, hmB, if_pos rfl]
  have hOk2 : Triangle2.new ⟨0, 1⟩ ⟨1, 1⟩ ⟨0, 0⟩ =
      .ok ⟨((⟨0, 0⟩ : R2), ⟨0, 1⟩, ⟨1, 1⟩)⟩ := by
    rw [triangle2_new_eval _ _ _ (by norm_num [R2.mk.injEq]) hn2,
      hmC, hmD, if_neg (by norm_num [R2.mk.injEq]),
      if_neg (by norm_num [R2.mk.injEq])]
  have hOk3 : Triangle2.new ⟨1, 1⟩ ⟨0, 0⟩ ⟨0, 1⟩ =
      .ok ⟨((⟨0, 0⟩ : R2), ⟨0, 1⟩, ⟨1, 1⟩)⟩ := by
    rw [triangle2_new_eval _ _ _ (by norm_num [R2.mk.injEq]) hn3,
      hmB, hmC, if_neg (by norm_num [R2.mk.injEq]), if_pos rfl]
  constructor
  · exact C9_triangle_canonical_form.1 ⟨0, 0⟩ ⟨0, 1⟩ ⟨1, 1⟩ _ _ _
      hOk1 hOk2 hOk3
  · apply C9_triangle_canonical_form.2 Pt3 _ ⟨0, 0, 0⟩ ⟨1, 0, 0⟩ ⟨0, 1, 0⟩
      (255, 0, 0, 255)
    simp [Mesh.pushTriangle, Mesh.pushVertex, Mesh.new, assocIndex]

end Fornjot
